import Mathlib

/-!
# Verification of the concurrent array family

Shallow embedding of the repository's concurrent-array core:

* `TSA` — the single-lock `ThreadSafeArray<T, Mutex>` of
  `src/ds/array/include/thread_safe_array.h`, whose backing store `data_` is a
  `std::vector<T>`, embedded as a `List α`.  In sequential (single-threaded)
  executions every lock acquisition in the source succeeds immediately and the
  critical section is the whole method body, so each method is a function of
  the backing store (plus, for the `try_*` methods, the outcome of the
  non-blocking lock acquisition).
* `RefSeq` — the unsynchronized ordered-sequence reference model, written from
  the specification's words (§4.2 of the spec), used for the refinement claim.
* `Spin` — the `SpinSharedMutex` of `src/ds/lock/thread_safe_lock.h` as a
  transition system on its 32-bit state word, with ghost ownership counters.
* `Striped` — the striped array (modelled from the spec, see its doc comment).
-/

set_option autoImplicit false

/-- Error outcome of the bounds-checked accessors: `std::vector::at` throws
`std::out_of_range` exactly when the index is not below the size. -/
inductive ArrErr : Type where
  | outOfRange : ArrErr
deriving DecidableEq, Repr

namespace TSA

variable {α : Type}

/-- `static constexpr size_t npos = static_cast<size_t>(-1)`. -/
def npos : Nat := 2 ^ 64 - 1

/-- `push_back(v)`: `data_.push_back(value)` appends at the end. -/
def push_back (xs : List α) (v : α) : List α := xs ++ [v]

/-- `emplace_back(args...)`: `data_.emplace_back(...)` constructs the new
element in place at the end; for the embedding the constructed value is the
argument. -/
def emplace_back (xs : List α) (v : α) : List α := xs ++ [v]

/-- `get(index)`: `return data_.at(index)`, which throws `std::out_of_range`
iff `index >= data_.size()`. -/
def get (xs : List α) (i : Nat) : Except ArrErr α :=
  match xs[i]? with
  | some v => .ok v
  | none => .error .outOfRange

/-- `set(index, value)`: `data_.at(index) = value`; `at` throws
`std::out_of_range` iff `index >= data_.size()`, otherwise the element at
`index` is assigned. -/
def set (xs : List α) (i : Nat) (v : α) : Except ArrErr (List α) :=
  match xs[i]? with
  | some _ => .ok (xs.set i v)
  | none => .error .outOfRange

/-- `erase(index)`: `if (index < data_.size()) data_.erase(data_.begin() + index)`;
out-of-range indices are silently ignored. -/
def erase (xs : List α) (i : Nat) : List α :=
  if i < xs.length then xs.eraseIdx i else xs

/-- `erase_range(first, last)`: `if (first < last && last <= data_.size())
data_.erase(data_.begin() + first, data_.begin() + last)`; removing the
iterator range `[begin+first, begin+last)` keeps the first `first` elements
and the elements from position `last` on. -/
def erase_range (xs : List α) (first last : Nat) : List α :=
  if first < last ∧ last ≤ xs.length then xs.take first ++ xs.drop last else xs

/-- `insert_range(range)`: `data_.insert(data_.end(), begin(range), end(range))`
appends the whole range at the end. -/
def insert_range (xs : List α) (r : List α) : List α := xs ++ r

/-- `clear()`: `data_.clear()`. -/
def clear (_xs : List α) : List α := []

/-- The scanning loop of `find`: `for (i = 0; i < size; ++i) if (data_[i] == value) return i;
return npos;`, with `i` the index of the current head. -/
def findFrom [DecidableEq α] : List α → α → Nat → Nat
  | [], _, _ => npos
  | x :: xs, v, i => if x = v then i else findFrom xs v (i + 1)

/-- `find(value)`: index of the first occurrence, `npos` when absent. -/
def find [DecidableEq α] (xs : List α) (v : α) : Nat := findFrom xs v 0

/-- `empty()`: `data_.empty()`. -/
def empty (xs : List α) : Bool := xs.isEmpty

/-- `size()`: `data_.size()`. -/
def size (xs : List α) : Nat := xs.length

/-- `to_vector()`: `return data_;` — an independent copy of the sequence. -/
def to_vector (xs : List α) : List α := xs

/-- `try_push_back(value)` with a real (non-null) mutex:
`UniqueLock lock(mutex_, std::try_to_lock); if (lock.owns_lock()) { data_.push_back(value); return true; } return false;`.
The parameter `acquired` is the outcome of the non-blocking exclusive acquire
(`lock.owns_lock()`), decided by the environment. -/
def try_push_back (acquired : Bool) (xs : List α) (v : α) : Bool × List α :=
  if acquired then (true, xs ++ [v]) else (false, xs)

/-- `try_emplace_back(args...)` with a real (non-null) mutex: same shape as
`try_push_back`, constructing in place. -/
def try_emplace_back (acquired : Bool) (xs : List α) (v : α) : Bool × List α :=
  if acquired then (true, xs ++ [v]) else (false, xs)

/-- `try_push_back` in the `if constexpr (std::is_same_v<Mutex, NullSharedMutex>)`
branch: no lock is taken, the element is appended unconditionally and the
call reports success. -/
def try_push_back_null (xs : List α) (v : α) : Bool × List α :=
  (true, xs ++ [v])

/-- `try_emplace_back` in the `NullSharedMutex` branch: unconditional append,
reports success. -/
def try_emplace_back_null (xs : List α) (v : α) : Bool × List α :=
  (true, xs ++ [v])

end TSA

/-- `NullSharedMutex` (`src/ds/array/include/thread_safe_lock.h`): the no-op
lock strategy; it has no state. -/
structure NullSharedMutex : Type where
  mk ::
deriving DecidableEq

/-- `bool try_lock() noexcept { return true; }` -/
def NullSharedMutex.try_lock (_m : NullSharedMutex) : Bool := true

/-- `bool try_lock_shared() noexcept { return true; }` -/
def NullSharedMutex.try_lock_shared (_m : NullSharedMutex) : Bool := true

/-- One operation of the single-threaded client sequence of claim C1.  `swap`
exchanges the contents of the array with a second array, so the machine state
below is a pair of sequences. -/
inductive ArrOp (α : Type) : Type where
  | push_back (v : α)
  | emplace_back (v : α)
  | get (i : Nat)
  | set (i : Nat) (v : α)
  | erase (i : Nat)
  | erase_range (first last : Nat)
  | insert_range (r : List α)
  | clear
  | find (v : α)
  | size
  | empty
  | swap
  | to_vector

/-- Observable result of one operation. -/
inductive ArrOut (α : Type) : Type where
  | unit
  | val (v : α)
  | fail (e : ArrErr)
  | nat (n : Nat)
  | bool (b : Bool)
  | vec (xs : List α)
deriving DecidableEq

namespace TSA

variable {α : Type}

/-- One step of the single-lock array: the state is the pair (this array's
`data_`, the other array's `data_`); every method is one critical section on
the sequential execution. -/
def step [DecidableEq α] (op : ArrOp α) (s : List α × List α) :
    ArrOut α × (List α × List α) :=
  match op with
  | .push_back v => (.unit, (push_back s.1 v, s.2))
  | .emplace_back v => (.val v, (emplace_back s.1 v, s.2))
  | .get i =>
    match get s.1 i with
    | .ok v => (.val v, s)
    | .error e => (.fail e, s)
  | .set i v =>
    match set s.1 i v with
    | .ok xs => (.unit, (xs, s.2))
    | .error e => (.fail e, s)
  | .erase i => (.unit, (erase s.1 i, s.2))
  | .erase_range f l => (.unit, (erase_range s.1 f l, s.2))
  | .insert_range r => (.unit, (insert_range s.1 r, s.2))
  | .clear => (.unit, (clear s.1, s.2))
  | .find v => (.nat (find s.1 v), s)
  | .size => (.nat (size s.1), s)
  | .empty => (.bool (empty s.1), s)
  | .swap => (.unit, (s.2, s.1))
  | .to_vector => (.vec (to_vector s.1), s)

/-- Run a whole operation sequence, collecting the outputs. -/
def run [DecidableEq α] : List (ArrOp α) → List α × List α →
    List (ArrOut α) × (List α × List α)
  | [], s => ([], s)
  | op :: ops, s =>
    let r := step op s
    let rest := run ops r.2
    (r.1 :: rest.1, rest.2)

end TSA

/-! ## The reference model

`RefSeq` is the unsynchronized ordered-sequence model, transcribed from the
words of §4.2 of the specification (not from the source): a plain sequence
where bounds violations fail with OutOfRange, `erase` shifts subsequent
elements down, `find` is a linear scan returning the first matching index or
a sentinel, and so on. -/

namespace RefSeq

variable {α : Type}

/-- Spec: "appends". -/
def push_back (xs : List α) (v : α) : List α := xs ++ [v]

/-- Spec: `emplace_back` appends the constructed element and hands back a
transient handle to it. -/
def emplace_back (xs : List α) (v : α) : List α := xs ++ [v]

/-- Spec: "`get` fails with OutOfRange when `i >= size()`", else the element
at position `i`. -/
def get (xs : List α) (i : Nat) : Except ArrErr α :=
  if h : i < xs.length then .ok (xs.get ⟨i, h⟩) else .error .outOfRange

/-- Spec: "`set(i, v)` fails with OutOfRange when `i >= size()`", else the
element at position `i` becomes `v`, all others staying in place. -/
def set (xs : List α) (i : Nat) (v : α) : Except ArrErr (List α) :=
  if i < xs.length then .ok (xs.take i ++ v :: xs.drop (i + 1))
  else .error .outOfRange

/-- Spec: "removes element at `i`, shifting subsequent elements down by one
position; no-op (not an error) when `i >= size()`". -/
def erase (xs : List α) (i : Nat) : List α :=
  if i < xs.length then xs.take i ++ xs.drop (i + 1) else xs

/-- Spec: "removes half-open range `[first, last)`; no-op when the range is
invalid (`first >= last` or `last > size()`)". -/
def erase_range (xs : List α) (first last : Nat) : List α :=
  if first < last ∧ last ≤ xs.length then xs.take first ++ xs.drop last else xs

/-- Spec: "appends all elements of `range` as one atomic batch". -/
def insert_range (xs : List α) (r : List α) : List α := xs ++ r

/-- Spec: "empties the sequence". -/
def clear (_xs : List α) : List α := []

/-- Index of the first occurrence, if any: the linear scan of the spec. -/
def findIndex [DecidableEq α] : List α → α → Option Nat
  | [], _ => none
  | x :: xs, v => if x = v then some 0 else (findIndex xs v).map (· + 1)

/-- Spec: "linear scan in index order; returns the first matching index or a
sentinel not-found value". -/
def find [DecidableEq α] (xs : List α) (v : α) : Nat :=
  match findIndex xs v with
  | some i => i
  | none => TSA.npos

/-- The sequence is empty iff its size is zero. -/
def empty (xs : List α) : Bool := decide (xs.length = 0)

/-- Number of elements. -/
def size (xs : List α) : Nat := xs.length

/-- Spec: "returns an independent copy of the full sequence". -/
def to_vector (xs : List α) : List α := xs

/-- One step of the reference model on the pair state. -/
def step [DecidableEq α] (op : ArrOp α) (s : List α × List α) :
    ArrOut α × (List α × List α) :=
  match op with
  | .push_back v => (.unit, (push_back s.1 v, s.2))
  | .emplace_back v => (.val v, (emplace_back s.1 v, s.2))
  | .get i =>
    match get s.1 i with
    | .ok v => (.val v, s)
    | .error e => (.fail e, s)
  | .set i v =>
    match set s.1 i v with
    | .ok xs => (.unit, (xs, s.2))
    | .error e => (.fail e, s)
  | .erase i => (.unit, (erase s.1 i, s.2))
  | .erase_range f l => (.unit, (erase_range s.1 f l, s.2))
  | .insert_range r => (.unit, (insert_range s.1 r, s.2))
  | .clear => (.unit, (clear s.1, s.2))
  | .find v => (.nat (find s.1 v), s)
  | .size => (.nat (size s.1), s)
  | .empty => (.bool (empty s.1), s)
  | .swap => (.unit, (s.2, s.1))
  | .to_vector => (.vec (to_vector s.1), s)

/-- Run a whole operation sequence on the reference model. -/
def run [DecidableEq α] : List (ArrOp α) → List α × List α →
    List (ArrOut α) × (List α × List α)
  | [], s => ([], s)
  | op :: ops, s =>
    let r := step op s
    let rest := run ops r.2
    (r.1 :: rest.1, rest.2)

end RefSeq

/-! ## SpinSharedMutex

`SpinSharedMutex` (`src/ds/lock/thread_safe_lock.h`) keeps one 32-bit word
`state_`: bit 31 (`WRITER_MASK = 0x80000000`) is the writer bit, bits 0–30
(`READER_MASK = 0x7FFFFFFF`) carry the reader count.  We embed it as a
transition system: a step is one successful acquisition or one release.
Ghost fields record actual ownership (how many shared holders exist and
whether an exclusive holder exists), which the state word is meant to
mirror. -/

namespace Spin

/-- `static constexpr uint32_t WRITER_MASK = 0x80000000`. -/
def WRITER_MASK : Nat := 2 ^ 31

/-- `static constexpr uint32_t READER_MASK = 0x7FFFFFFF`. -/
def READER_MASK : Nat := 2 ^ 31 - 1

/-- The modulus of the `uint32_t` state word. -/
def U32 : Nat := 2 ^ 32

/-- The `state_` word plus ghost ownership bookkeeping. -/
structure State : Type where
  word : Nat
  readers : Nat
  writer : Bool
deriving DecidableEq, Repr

/-- The embedding of `current & WRITER_MASK`: bit 31 of the word. -/
def writerBit (w : Nat) : Bool := w.testBit 31

/-- One step of `SpinSharedMutex`.

* `lockEx`: `lock()` / `try_lock()` succeed through
  `compare_exchange(expected = 0, WRITER_MASK)` — only from word `0`.
* `unlockEx`: `unlock()` stores `0`; it is executed by the exclusive holder.
* `lockShared`: `lock_shared()` / `try_lock_shared()` succeed through
  `compare_exchange(current, current + 1)` where the observed `current` has
  the writer bit clear; the 32-bit increment wraps.
* `unlockShared`: `unlock_shared()` is `fetch_sub(1)` (wrapping), executed
  by one of the shared holders. -/
inductive Step : State → State → Prop where
  | lockEx {s : State} : s.word = 0 →
      Step s ⟨WRITER_MASK, s.readers, true⟩
  | unlockEx {s : State} : s.writer = true →
      Step s ⟨0, s.readers, false⟩
  | lockShared {s : State} : writerBit s.word = false →
      Step s ⟨(s.word + 1) % U32, s.readers + 1, s.writer⟩
  | unlockShared {s : State} : 0 < s.readers →
      Step s ⟨(s.word + (U32 - 1)) % U32, s.readers - 1, s.writer⟩

/-- States reachable from the initial free state (`state_{0}`, no holders). -/
inductive Reachable : State → Prop where
  | init : Reachable ⟨0, 0, false⟩
  | step {s t : State} : Reachable s → Step s t → Reachable t

/-- The invariant as claim C8 states it: the word is `0` (free, no holders),
exactly `WRITER_MASK` (one exclusive holder, no readers), or a positive
reader count `<= READER_MASK` with the writer bit clear. -/
def claimedInv (s : State) : Prop :=
  (s.word = 0 ∧ s.writer = false ∧ s.readers = 0) ∨
  (s.word = WRITER_MASK ∧ s.writer = true ∧ s.readers = 0) ∨
  (0 < s.word ∧ s.word ≤ READER_MASK ∧ s.writer = false ∧ s.readers = s.word)

instance (s : State) : Decidable (claimedInv s) := by
  unfold claimedInv; infer_instance

/-- The invariant that actually holds: an exclusive holder owns the word
alone, and otherwise the word counts the shared holders, which can reach
`2 ^ 31` — at which point the word equals `WRITER_MASK` with no writer. -/
def inv (s : State) : Prop :=
  (s.writer = true ∧ s.word = WRITER_MASK ∧ s.readers = 0) ∨
  (s.writer = false ∧ s.word = s.readers ∧ s.readers ≤ WRITER_MASK)

/-- The claimed invariant amended with the reader-overflow case: the word can
also be exactly `WRITER_MASK` with `2 ^ 31` shared holders and no exclusive
holder. -/
def amendedInv (s : State) : Prop :=
  (s.word = 0 ∧ s.writer = false ∧ s.readers = 0) ∨
  (s.word = WRITER_MASK ∧
    ((s.writer = true ∧ s.readers = 0) ∨
     (s.writer = false ∧ s.readers = WRITER_MASK))) ∨
  (0 < s.word ∧ s.word ≤ READER_MASK ∧ s.writer = false ∧ s.readers = s.word)

/-- The state after `n` successful shared acquisitions and nothing else. -/
def readerState (n : Nat) : State := ⟨n, n, false⟩

end Spin

/-! ## The striped array (modelled from the spec) -/

namespace Striped

variable {α : Type}

/-- Modelled from the spec: the striped array class `StripedThreadSafeArray`
is exercised by `src/ds/array/src/main.cpp` but its definition is not among
the source files.  Following §4.3 of the specification: the array owns a
fixed list of independently locked segments and a monotonically increasing
selection counter; `push_back` targets segment `counter mod N`; per-segment
counts equal the segment lengths whenever the segment is quiescent (as in
the single-threaded executions of claim C2); `size()` sums the per-segment
counts; `get(i)` resolves the logical index through the prefix sums of the
counts and fails with OutOfRange when `i >= total`. -/
structure StripedArr (α : Type) : Type where
  counter : Nat
  segments : List (List α)

/-- A fresh striped array with `n` empty segments and counter `0`. -/
def init (α : Type) (n : Nat) : StripedArr α := ⟨0, List.replicate n []⟩

/-- Append `v` to the `k`-th segment. -/
def appendSeg : List (List α) → Nat → α → List (List α)
  | [], _, _ => []
  | seg :: rest, 0, v => (seg ++ [v]) :: rest
  | seg :: rest, k + 1, v => seg :: appendSeg rest k v

/-- Modelled from the spec (§4.3): `push_back` increments the selection
counter and appends to segment `counter mod N`. -/
def push_back (s : StripedArr α) (v : α) : StripedArr α :=
  ⟨s.counter + 1, appendSeg s.segments (s.counter % s.segments.length) v⟩

/-- The per-segment count snapshot (exact in the quiescent case). -/
def counts (s : StripedArr α) : List Nat := s.segments.map List.length

/-- Modelled from the spec (§4.3): `size()` is the sum of the per-segment
counts. -/
def size (s : StripedArr α) : Nat := (counts s).sum

/-- Walking the prefix sums of the counts: find the owning segment and read
at the offset within it. -/
def resolveGet : List (List α) → Nat → Except ArrErr α
  | [], _ => .error .outOfRange
  | seg :: rest, i =>
    if h : i < seg.length then .ok (seg.get ⟨i, h⟩)
    else resolveGet rest (i - seg.length)

/-- Modelled from the spec (§4.3): `get(i)` snapshots the counts, fails with
OutOfRange when `i >= total`, and otherwise resolves `(segment, offset)`
through the prefix sums and reads the element. -/
def get (s : StripedArr α) (i : Nat) : Except ArrErr α :=
  if size s ≤ i then .error .outOfRange else resolveGet s.segments i

/-- `N` sequential `push_back` calls from one thread. -/
def pushAll (s : StripedArr α) (vs : List α) : StripedArr α :=
  vs.foldl push_back s

end Striped

/-! ## Per-operation agreement between the source embedding and the
reference model -/

section Agreement

variable {α : Type}

theorem get_models (xs : List α) (i : Nat) : TSA.get xs i = RefSeq.get xs i := by
  unfold TSA.get RefSeq.get
  by_cases h : i < xs.length
  · simp [List.getElem?_eq_getElem h, List.get_eq_getElem, h]
  · simp [List.getElem?_eq_none (Nat.le_of_not_lt h), h]

theorem set_models (xs : List α) (i : Nat) (v : α) :
    TSA.set xs i v = RefSeq.set xs i v := by
  unfold TSA.set RefSeq.set
  by_cases h : i < xs.length
  · simp [List.getElem?_eq_getElem h, h, List.set_eq_take_cons_drop v h]
  · simp [List.getElem?_eq_none (Nat.le_of_not_lt h), h]

theorem erase_models (xs : List α) (i : Nat) : TSA.erase xs i = RefSeq.erase xs i := by
  unfold TSA.erase RefSeq.erase
  by_cases h : i < xs.length
  · simp [h, List.eraseIdx_eq_take_drop_succ]
  · simp [h]

theorem findFrom_models [DecidableEq α] (xs : List α) (v : α) (n : Nat) :
    TSA.findFrom xs v n =
      match RefSeq.findIndex xs v with
      | some j => n + j
      | none => TSA.npos := by
  induction xs generalizing n with
  | nil => rfl
  | cons x xs ih =>
    unfold TSA.findFrom RefSeq.findIndex
    by_cases h : x = v
    · simp [h]
    · simp only [h, if_false, ih (n + 1)]
      cases RefSeq.findIndex xs v <;> simp [Nat.add_assoc, Nat.add_comm 1]

theorem find_models [DecidableEq α] (xs : List α) (v : α) :
    TSA.find xs v = RefSeq.find xs v := by
  unfold TSA.find RefSeq.find
  rw [findFrom_models]
  cases RefSeq.findIndex xs v <;> simp

theorem empty_models (xs : List α) : TSA.empty xs = RefSeq.empty xs := by
  cases xs <;> rfl

/-- Every single operation of the single-lock array produces the same output
and successor state as the reference model. -/
theorem step_models [DecidableEq α] (op : ArrOp α) (s : List α × List α) :
    TSA.step op s = RefSeq.step op s := by
  cases op with
  | get i =>
    simp only [TSA.step, RefSeq.step, get_models]
  | set i v =>
    simp only [TSA.step, RefSeq.step, set_models]
  | erase i =>
    simp only [TSA.step, RefSeq.step, erase_models]
  | find v =>
    simp only [TSA.step, RefSeq.step, find_models]
  | empty =>
    simp only [TSA.step, RefSeq.step, empty_models]
  | _ => rfl

end Agreement

/-! ## Striped-array lemmas -/

namespace Striped

variable {α : Type}

theorem length_appendSeg (segs : List (List α)) (k : Nat) (v : α) :
    (appendSeg segs k v).length = segs.length := by
  induction segs generalizing k with
  | nil => rfl
  | cons seg rest ih =>
    cases k with
    | zero => rfl
    | succ k => simp [appendSeg, ih]

theorem flatten_appendSeg_perm (segs : List (List α)) (k : Nat) (v : α)
    (hk : k < segs.length) :
    ((appendSeg segs k v).flatten).Perm (segs.flatten ++ [v]) := by
  induction segs generalizing k with
  | nil => cases hk
  | cons seg rest ih =>
    cases k with
    | zero =>
      simp only [appendSeg, List.flatten_cons, List.append_assoc]
      exact List.Perm.append_left seg List.perm_append_comm
    | succ k =>
      simp only [appendSeg, List.flatten_cons, List.append_assoc]
      exact List.Perm.append_left seg (ih k (Nat.lt_of_succ_lt_succ hk))

theorem size_eq_length_flatten (s : StripedArr α) :
    size s = s.segments.flatten.length := by
  simp [size, counts, List.length_flatten]

theorem resolveGet_eq_get_flatten (segs : List (List α)) (i : Nat) :
    resolveGet segs i = TSA.get segs.flatten i := by
  induction segs generalizing i with
  | nil => simp [resolveGet, TSA.get]
  | cons seg rest ih =>
    by_cases h : i < seg.length
    · simp only [resolveGet, h, dif_pos, TSA.get, List.flatten_cons,
        List.getElem?_append_left h, List.getElem?_eq_getElem h,
        List.get_eq_getElem]
    · simp only [resolveGet, h, dif_neg, TSA.get, List.flatten_cons,
        List.getElem?_append_right (Nat.le_of_not_lt h)]
      exact ih (i - seg.length)

theorem get_eq_get_flatten (s : StripedArr α) (i : Nat) :
    get s i = TSA.get s.segments.flatten i := by
  unfold get
  by_cases h : size s ≤ i
  · rw [if_pos h]
    unfold TSA.get
    rw [List.getElem?_eq_none (by rw [← size_eq_length_flatten]; exact h)]
  · rw [if_neg h, resolveGet_eq_get_flatten]

theorem length_segments_push_back (s : StripedArr α) (v : α) :
    (push_back s v).segments.length = s.segments.length := by
  simp [push_back, length_appendSeg]

theorem flatten_pushAll_perm (vs : List α) (s : StripedArr α)
    (hs : 0 < s.segments.length) :
    ((pushAll s vs).segments.flatten).Perm (s.segments.flatten ++ vs) := by
  induction vs generalizing s with
  | nil => simp [pushAll]
  | cons v vs ih =>
    have hp : 0 < (push_back s v).segments.length := by
      rw [length_segments_push_back]; exact hs
    have h1 := ih (push_back s v) hp
    have h2 : ((push_back s v).segments.flatten).Perm (s.segments.flatten ++ [v]) :=
      flatten_appendSeg_perm s.segments (s.counter % s.segments.length) v
        (Nat.mod_lt s.counter hs)
    have h3 : ((pushAll s (v :: vs)).segments.flatten).Perm
        ((s.segments.flatten ++ [v]) ++ vs) :=
      h1.trans (h2.append_right vs)
    simpa [List.append_assoc] using h3

theorem flatten_init (n : Nat) : (init α n).segments.flatten = [] := by
  induction n with
  | zero => rfl
  | succ n ih => simp [init, List.replicate_succ] at ih ⊢

theorem map_range_get (xs : List α) :
    (List.range xs.length).map (fun i => TSA.get xs i) = xs.map Except.ok := by
  induction xs with
  | nil => rfl
  | cons x t ih =>
    have hf : (fun i => TSA.get (x :: t) (Nat.succ i)) = fun i => TSA.get t i := by
      funext i
      simp [TSA.get, List.getElem?_cons_succ]
    calc (List.range (x :: t).length).map (fun i => TSA.get (x :: t) i)
        = TSA.get (x :: t) 0 ::
            (List.range t.length).map (fun i => TSA.get (x :: t) (Nat.succ i)) := by
          rw [List.length_cons, List.range_succ_eq_map, List.map_cons, List.map_map]
          rfl
      _ = Except.ok x :: (List.range t.length).map (fun i => TSA.get t i) := by
          rw [hf]; simp [TSA.get]
      _ = (x :: t).map Except.ok := by rw [ih]; rfl

end Striped

/-! ## SpinSharedMutex lemmas -/

namespace Spin

theorem writerBit_WRITER_MASK : writerBit WRITER_MASK = true := by decide

theorem writerBit_of_lt {w : Nat} (h : w < WRITER_MASK) : writerBit w = false :=
  Nat.testBit_lt_two_pow h

theorem lt_of_writerBit_false {w : Nat} (hw : w ≤ WRITER_MASK)
    (hb : writerBit w = false) : w < WRITER_MASK := by
  rcases Nat.lt_or_ge w WRITER_MASK with h | h
  · exact h
  · have heq : w = WRITER_MASK := Nat.le_antisymm hw h
    rw [heq, writerBit_WRITER_MASK] at hb
    simp at hb

theorem reachable_readerState : ∀ n, n ≤ WRITER_MASK → Reachable (readerState n)
  | 0, _ => .init
  | n + 1, hn => by
    have hlt : n < WRITER_MASK := hn
    have hprev := reachable_readerState n (Nat.le_of_lt hlt)
    refine Reachable.step hprev ?_
    have hstep := Step.lockShared (s := readerState n) (writerBit_of_lt hlt)
    have hmod : (n + 1) % U32 = n + 1 :=
      Nat.mod_eq_of_lt (Nat.lt_of_le_of_lt hn (by decide))
    simp only [readerState] at hstep ⊢
    rwa [hmod] at hstep

/-- The inductive invariant of the spin lock: an exclusive holder owns the
word alone (readers `0`), and otherwise the word equals the number of shared
holders, which may climb all the way to `2 ^ 31`. -/
theorem reachable_inv {s : State} (h : Reachable s) : inv s := by
  have hWU : WRITER_MASK < U32 := by decide
  induction h with
  | init => exact Or.inr ⟨rfl, rfl, Nat.zero_le _⟩
  | @step s t hr hstep ih =>
    cases hstep with
    | lockEx hw =>
      rcases ih with ⟨hwr, hword, hrd⟩ | ⟨hwr, hword, hle⟩
      · rw [hword] at hw
        exact absurd hw (by decide)
      · exact Or.inl ⟨rfl, rfl, show s.readers = 0 by omega⟩
    | unlockEx hw =>
      rcases ih with ⟨hwr, hword, hrd⟩ | ⟨hwr, hword, hle⟩
      · exact Or.inr ⟨rfl, hrd.symm, show s.readers ≤ WRITER_MASK by omega⟩
      · rw [hwr] at hw
        simp at hw
    | lockShared hb =>
      rcases ih with ⟨hwr, hword, hrd⟩ | ⟨hwr, hword, hle⟩
      · rw [hword, writerBit_WRITER_MASK] at hb
        simp at hb
      · have hwle : s.word ≤ WRITER_MASK := hword.symm ▸ hle
        have hlt : s.word < WRITER_MASK := lt_of_writerBit_false hwle hb
        have hmod : (s.word + 1) % U32 = s.word + 1 :=
          Nat.mod_eq_of_lt (by omega)
        refine Or.inr ⟨hwr, show (s.word + 1) % U32 = s.readers + 1 from ?_,
          show s.readers + 1 ≤ WRITER_MASK by omega⟩
        rw [hmod, hword]
    | unlockShared hrd =>
      rcases ih with ⟨hwr, hword, hr0⟩ | ⟨hwr, hword, hle⟩
      · rw [hr0] at hrd
        exact absurd hrd (by decide)
      · have h1 : 1 ≤ s.word := by omega
        have he : s.word + (U32 - 1) = (s.word - 1) + U32 := by omega
        have hmod : (s.word + (U32 - 1)) % U32 = s.word - 1 := by
          rw [he, Nat.add_mod_right]
          exact Nat.mod_eq_of_lt (by omega)
        refine Or.inr ⟨hwr, show (s.word + (U32 - 1)) % U32 = s.readers - 1 from ?_,
          show s.readers - 1 ≤ WRITER_MASK by omega⟩
        rw [hmod, hword]

theorem inv_implies_amendedInv {s : State} (h : inv s) : amendedInv s := by
  have hRM : READER_MASK + 1 = WRITER_MASK := by decide
  rcases h with ⟨hwr, hword, hrd⟩ | ⟨hwr, hword, hle⟩
  · exact Or.inr (Or.inl ⟨hword, Or.inl ⟨hwr, hrd⟩⟩)
  · rcases Nat.eq_zero_or_pos s.word with hz | hp
    · exact Or.inl ⟨hz, hwr, by omega⟩
    · rcases Nat.lt_or_ge s.word WRITER_MASK with hlt | hge
      · exact Or.inr (Or.inr ⟨hp, by omega, hwr, hword.symm⟩)
      · have heq : s.word = WRITER_MASK := by omega
        exact Or.inr (Or.inl ⟨heq, Or.inr ⟨hwr, by omega⟩⟩)

theorem step_exclusive_only_from_free {s t : State} (h : Step s t)
    (hs : s.writer = false) (ht : t.writer = true) : s.word = 0 := by
  cases h with
  | lockEx hw => exact hw
  | unlockEx hw => simp at ht
  | lockShared hb => rw [hs] at ht; simp at ht
  | unlockShared hr => rw [hs] at ht; simp at ht

theorem step_shared_only_with_writer_bit_clear {s t : State} (h : Step s t)
    (ht : t.readers = s.readers + 1) : writerBit s.word = false := by
  cases h with
  | lockEx hw => simp at ht
  | unlockEx hw => simp at ht
  | lockShared hb => exact hb
  | unlockShared hr => simp at ht

end Spin

example : TSA.push_back [1, 2] 3 = [1, 2, 3] := by decide
example : TSA.get [10, 20] 1 = .ok 20 := rfl
example : TSA.get ([10, 20] : List Nat) 2 = .error .outOfRange := rfl
example : TSA.erase [1, 2, 3] 1 = [1, 3] := by decide
example : TSA.erase_range [1, 2, 3, 4] 1 3 = [1, 4] := by decide
example : TSA.find [5, 6, 7] 7 = 2 := by decide
example : TSA.find ([5] : List Nat) 9 = TSA.npos := by decide
example : Striped.size (Striped.pushAll (Striped.init Nat 4) [1, 2, 3, 4, 5]) = 5 := by decide
example : Striped.get (Striped.pushAll (Striped.init Nat 4) [1, 2, 3, 4, 5]) 0 = .ok 1 := rfl
example : Striped.get (Striped.pushAll (Striped.init Nat 4) [1, 2, 3, 4, 5]) 1 = .ok 5 := rfl
example : Striped.get (Striped.pushAll (Striped.init Nat 4) [1, 2, 3, 4, 5]) 5 = .error .outOfRange := rfl

/-! ## The claims -/

/-- C1: every sequence of single-threaded operations (push_back,
emplace_back, get, set, erase, erase_range, insert_range, clear, find, size,
empty, swap, to_vector) produces on the single-lock `ThreadSafeArray` the
same outputs and the same final contents as on the plain unsynchronized
ordered-sequence reference model. -/
theorem C1_single_lock_matches_reference_model (α : Type) [DecidableEq α]
    (ops : List (ArrOp α)) (s : List α × List α) :
    TSA.run ops s = RefSeq.run ops s := by
  induction ops generalizing s with
  | nil => rfl
  | cons op ops ih => simp only [TSA.run, RefSeq.run, step_models, ih]

/-- Witness for C1 at a concrete operation sequence. -/
theorem C1_witness :
    TSA.run [ArrOp.push_back 7, ArrOp.get 0, ArrOp.erase 0, ArrOp.size]
        (([], []) : List Nat × List Nat) =
      RefSeq.run [ArrOp.push_back 7, ArrOp.get 0, ArrOp.erase 0, ArrOp.size]
        (([], []) : List Nat × List Nat) :=
  C1_single_lock_matches_reference_model Nat
    [ArrOp.push_back 7, ArrOp.get 0, ArrOp.erase 0, ArrOp.size] ([], [])

/-- C2: after `N` sequential `push_back` calls on a fresh striped array (one
thread, no concurrency), `size()` is exactly `N`; `get(i)` succeeds for
every `i < N`; and the values read across all indices are exactly the `N`
pushed values, each appearing once (the read-out list is a permutation of
the pushed list). -/
theorem C2_striped_sequential_pushes (α : Type) (K : Nat) (hK : 0 < K)
    (vs : List α) :
    Striped.size (Striped.pushAll (Striped.init α K) vs) = vs.length ∧
    (∀ i, i < vs.length →
      ∃ v, Striped.get (Striped.pushAll (Striped.init α K) vs) i = .ok v) ∧
    ((List.range vs.length).map
        (fun i => Striped.get (Striped.pushAll (Striped.init α K) vs) i)).Perm
      (vs.map Except.ok) := by
  have hinit : 0 < (Striped.init α K).segments.length := by
    simpa [Striped.init] using hK
  have hperm :
      ((Striped.pushAll (Striped.init α K) vs).segments.flatten).Perm vs := by
    have h := Striped.flatten_pushAll_perm vs (Striped.init α K) hinit
    rwa [Striped.flatten_init, List.nil_append] at h
  have hlen :
      (Striped.pushAll (Striped.init α K) vs).segments.flatten.length =
        vs.length := hperm.length_eq
  refine ⟨?_, ?_, ?_⟩
  · rw [Striped.size_eq_length_flatten, hlen]
  · intro i hi
    have hi2 : i < (Striped.pushAll (Striped.init α K) vs).segments.flatten.length := by
      rw [hlen]; exact hi
    refine ⟨(Striped.pushAll (Striped.init α K) vs).segments.flatten.get ⟨i, hi2⟩, ?_⟩
    rw [Striped.get_eq_get_flatten]
    unfold TSA.get
    rw [List.getElem?_eq_getElem hi2]
    simp [List.get_eq_getElem]
  · have hf : (fun i => Striped.get (Striped.pushAll (Striped.init α K) vs) i) =
        fun i => TSA.get (Striped.pushAll (Striped.init α K) vs).segments.flatten i :=
      funext fun i => Striped.get_eq_get_flatten _ i
    rw [hf, ← hlen, Striped.map_range_get]
    exact hperm.map Except.ok

/-- Witness for C2: four stripes, three sequential pushes. -/
theorem C2_witness :
    Striped.size (Striped.pushAll (Striped.init Nat 4) [10, 20, 30]) = 3 ∧
    (∃ v, Striped.get (Striped.pushAll (Striped.init Nat 4) [10, 20, 30]) 1 = .ok v) ∧
    ((List.range 3).map
        (fun i => Striped.get (Striped.pushAll (Striped.init Nat 4) [10, 20, 30]) i)).Perm
      ([10, 20, 30].map Except.ok) :=
  ⟨(C2_striped_sequential_pushes Nat 4 (by decide) [10, 20, 30]).1,
   (C2_striped_sequential_pushes Nat 4 (by decide) [10, 20, 30]).2.1 1 (by decide),
   (C2_striped_sequential_pushes Nat 4 (by decide) [10, 20, 30]).2.2⟩

/-- C3: `get(i)` fails with OutOfRange exactly when `i >= size()` (in
particular at `i = size()` and `i = size() + 1`), returns the element at
position `i` when `i < size()`, and leaves the sequence unchanged in both
cases. -/
theorem C3_get_out_of_range_boundaries (α : Type) [DecidableEq α]
    (xs ys : List α) (i : Nat) :
    (TSA.get xs i = .error .outOfRange ↔ TSA.size xs ≤ i) ∧
    (∀ h : i < TSA.size xs, TSA.get xs i = .ok (xs.get ⟨i, h⟩)) ∧
    TSA.get xs (TSA.size xs) = .error .outOfRange ∧
    TSA.get xs (TSA.size xs + 1) = .error .outOfRange ∧
    (TSA.step (ArrOp.get i) (xs, ys)).2 = (xs, ys) := by
  refine ⟨?_, ?_, ?_, ?_, ?_⟩
  · unfold TSA.get TSA.size
    by_cases h : i < xs.length
    · simp [List.getElem?_eq_getElem h, Nat.not_le.mpr h]
    · simp [List.getElem?_eq_none (Nat.le_of_not_lt h), Nat.le_of_not_lt h]
  · intro h
    unfold TSA.get
    rw [List.getElem?_eq_getElem h]
    simp [List.get_eq_getElem]
  · unfold TSA.get TSA.size
    rw [List.getElem?_eq_none (Nat.le_refl _)]
  · unfold TSA.get TSA.size
    rw [List.getElem?_eq_none (Nat.le_succ_of_le (Nat.le_refl _))]
  · cases hg : TSA.get xs i <;> simp [TSA.step, hg]

/-- Witness for C3 at a two-element array. -/
theorem C3_witness :
    TSA.get [5, 6] 1 = .ok 6 ∧
    TSA.get ([5, 6] : List Nat) 2 = .error .outOfRange ∧
    TSA.get ([5, 6] : List Nat) 3 = .error .outOfRange :=
  ⟨(C3_get_out_of_range_boundaries Nat [5, 6] [] 1).2.1 (by decide),
   (C3_get_out_of_range_boundaries Nat [5, 6] [] 1).2.2.1,
   (C3_get_out_of_range_boundaries Nat [5, 6] [] 1).2.2.2.1⟩

/-- C4: with a real (non-null) mutex, `try_push_back` either acquires the
exclusive lock, appends and reports `true`, or — when the lock is not
immediately available — reports `false` with the sequence and its size
completely unchanged; and a retry after the lock is released succeeds. -/
theorem C4_try_push_back_all_or_nothing (α : Type) (acquired : Bool)
    (xs : List α) (v : α) :
    (acquired = true →
      TSA.try_push_back acquired xs v = (true, TSA.push_back xs v)) ∧
    (acquired = false →
      TSA.try_push_back acquired xs v = (false, xs) ∧
      TSA.size (TSA.try_push_back acquired xs v).2 = TSA.size xs) ∧
    TSA.try_push_back true xs v = (true, TSA.push_back xs v) := by
  refine ⟨fun h => ?_, fun h => ?_, rfl⟩
  · subst h; rfl
  · subst h; exact ⟨rfl, rfl⟩

/-- Witness for C4: a blocked attempt leaves `[1, 2]` alone; a retry with
the lock free appends. -/
theorem C4_witness :
    TSA.try_push_back false [1, 2] 3 = (false, [1, 2]) ∧
    TSA.try_push_back true [1, 2] 3 = (true, [1, 2, 3]) :=
  ⟨((C4_try_push_back_all_or_nothing Nat false [1, 2] 3).2.1 rfl).1,
   (C4_try_push_back_all_or_nothing Nat true [1, 2] 3).1 rfl⟩

/-- C5: `erase(i)` with `i < size()` removes the element at `i` and shifts
every later element down one position — so a following `get(i)` (while `i`
is below the new size) reads what was previously at `i + 1` — and the size
drops by one; with `i >= size()` it is a no-op. -/
theorem C5_erase_shifts_down (α : Type) (xs : List α) (i : Nat) :
    (i < TSA.size xs →
      TSA.size (TSA.erase xs i) = TSA.size xs - 1 ∧
      (∀ j, j < i → (TSA.erase xs i)[j]? = xs[j]?) ∧
      (∀ j, i ≤ j → (TSA.erase xs i)[j]? = xs[j + 1]?) ∧
      (i < TSA.size (TSA.erase xs i) →
        TSA.get (TSA.erase xs i) i = TSA.get xs (i + 1))) ∧
    (TSA.size xs ≤ i → TSA.erase xs i = xs) := by
  constructor
  · intro h
    have h' : i < xs.length := h
    have he : TSA.erase xs i = xs.take i ++ xs.drop (i + 1) := by
      simp [TSA.erase, h', List.eraseIdx_eq_take_drop_succ]
    have hshift : ∀ j, i ≤ j → (TSA.erase xs i)[j]? = xs[j + 1]? := by
      intro j hj
      rw [he, List.getElem?_append_right (by simp [List.length_take]; omega)]
      rw [List.getElem?_drop]
      have : i + 1 + (j - (xs.take i).length) = j + 1 := by
        simp [List.length_take]; omega
      rw [this]
    refine ⟨?_, ?_, hshift, ?_⟩
    · rw [TSA.size, TSA.size, he]
      simp [List.length_take, List.length_drop]
      omega
    · intro j hj
      rw [he, List.getElem?_append_left (by simp [List.length_take]; omega)]
      exact List.getElem?_take_of_lt hj
    · intro h2
      unfold TSA.get
      rw [hshift i (Nat.le_refl i)]
  · intro h
    have h' : ¬ i < xs.length := Nat.not_lt.mpr h
    simp [TSA.erase, h']

/-- Witness for C5 on `[4, 5, 6]`. -/
theorem C5_witness :
    TSA.size (TSA.erase [4, 5, 6] 1) = 2 ∧
    TSA.get (TSA.erase [4, 5, 6] 1) 1 = TSA.get [4, 5, 6] 2 ∧
    TSA.erase [4, 5, 6] 5 = [4, 5, 6] :=
  ⟨((C5_erase_shifts_down Nat [4, 5, 6] 1).1 (by decide)).1,
   ((C5_erase_shifts_down Nat [4, 5, 6] 1).1 (by decide)).2.2.2 (by decide),
   (C5_erase_shifts_down Nat [4, 5, 6] 5).2 (by decide)⟩

/-- C6: `erase_range(first, last)` with `first < last <= size()` removes
exactly the half-open range `[first, last)` and preserves all other elements
in order; an invalid range (`first >= last` or `last > size()`) is a silent
no-op, never a reported error. -/
theorem C6_erase_range_half_open (α : Type) (xs : List α) (f l : Nat) :
    (f < l ∧ l ≤ TSA.size xs →
      TSA.size (TSA.erase_range xs f l) = TSA.size xs - (l - f) ∧
      (∀ j, j < f → (TSA.erase_range xs f l)[j]? = xs[j]?) ∧
      (∀ j, f ≤ j → (TSA.erase_range xs f l)[j]? = xs[j + (l - f)]?)) ∧
    (¬(f < l ∧ l ≤ TSA.size xs) → TSA.erase_range xs f l = xs) := by
  constructor
  · intro hv
    have hv' : f < l ∧ l ≤ xs.length := hv
    have hf : f < xs.length := Nat.lt_of_lt_of_le hv'.1 hv'.2
    have he : TSA.erase_range xs f l = xs.take f ++ xs.drop l := by
      unfold TSA.erase_range
      rw [if_pos hv']
    refine ⟨?_, ?_, ?_⟩
    · simp only [TSA.size, he]
      simp [List.length_take, List.length_drop]
      omega
    · intro j hj
      rw [he, List.getElem?_append_left (by simp [List.length_take]; omega)]
      exact List.getElem?_take_of_lt hj
    · intro j hj
      rw [he, List.getElem?_append_right (by simp [List.length_take]; omega)]
      rw [List.getElem?_drop]
      have : l + (j - (xs.take f).length) = j + (l - f) := by
        simp [List.length_take]
        omega
      rw [this]
  · intro h
    have h' : ¬(f < l ∧ l ≤ xs.length) := h
    unfold TSA.erase_range
    rw [if_neg h']

/-- Witness for C6 on `[1, 2, 3, 4]`: a valid range, an empty range and an
overlong range. -/
theorem C6_witness :
    TSA.size (TSA.erase_range [1, 2, 3, 4] 1 3) = 2 ∧
    TSA.erase_range [1, 2, 3, 4] 3 3 = [1, 2, 3, 4] ∧
    TSA.erase_range [1, 2, 3, 4] 2 9 = [1, 2, 3, 4] :=
  ⟨((C6_erase_range_half_open Nat [1, 2, 3, 4] 1 3).1 ⟨by decide, by decide⟩).1,
   (C6_erase_range_half_open Nat [1, 2, 3, 4] 3 3).2 (by decide),
   (C6_erase_range_half_open Nat [1, 2, 3, 4] 2 9).2 (by decide)⟩

/-- C7: taking a snapshot (`to_vector`), clearing, then `insert_range` with
the snapshot restores the original contents, order and size. -/
theorem C7_snapshot_clear_insert_restores (α : Type) (xs : List α) :
    TSA.insert_range (TSA.clear xs) (TSA.to_vector xs) = xs ∧
    TSA.size (TSA.insert_range (TSA.clear xs) (TSA.to_vector xs)) =
      TSA.size xs := by
  simp [TSA.insert_range, TSA.clear, TSA.to_vector, TSA.size]

/-- C9: the mutators touch only what they name — `set(i, v)` with
`i < size()` replaces exactly the element at `i`; `push_back`,
`emplace_back` and `insert_range` leave every element below the old size
unchanged and only append at the end. -/
theorem C9_mutators_frame (α : Type) (xs r : List α) (i : Nat) (v : α) :
    (i < TSA.size xs → ∃ ys, TSA.set xs i v = .ok ys ∧
      TSA.size ys = TSA.size xs ∧ ys[i]? = some v ∧
      ∀ j, j ≠ i → ys[j]? = xs[j]?) ∧
    (∀ j, j < TSA.size xs →
      (TSA.push_back xs v)[j]? = xs[j]? ∧
      (TSA.emplace_back xs v)[j]? = xs[j]? ∧
      (TSA.insert_range xs r)[j]? = xs[j]?) ∧
    (TSA.push_back xs v)[TSA.size xs]? = some v ∧
    TSA.size (TSA.push_back xs v) = TSA.size xs + 1 ∧
    TSA.size (TSA.insert_range xs r) = TSA.size xs + r.length := by
  refine ⟨?_, ?_, ?_, ?_, ?_⟩
  · intro h
    refine ⟨xs.set i v, ?_, ?_, ?_, ?_⟩
    · unfold TSA.set
      rw [List.getElem?_eq_getElem h]
    · simp [TSA.size, List.length_set]
    · have h' : i < xs.length := h
      rw [List.getElem?_set_self]
      simp [h']
    · intro j hj
      exact List.getElem?_set_ne (Ne.symm hj)
  · intro j hj
    exact ⟨List.getElem?_append_left hj, List.getElem?_append_left hj,
      List.getElem?_append_left hj⟩
  · exact List.getElem?_concat_length xs v
  · simp [TSA.size, TSA.push_back]
  · simp [TSA.size, TSA.insert_range]

/-- Witness for C9 on `[7, 8]`. -/
theorem C9_witness :
    (TSA.push_back [7, 8] 9)[0]? = some 7 ∧
    (TSA.push_back ([7, 8] : List Nat) 9)[2]? = some 9 ∧
    TSA.size (TSA.push_back ([7, 8] : List Nat) 9) = 3 :=
  ⟨((C9_mutators_frame Nat [7, 8] [] 0 9).2.1 0 (by decide)).1,
   (C9_mutators_frame Nat [7, 8] [] 0 9).2.2.1,
   (C9_mutators_frame Nat [7, 8] [] 0 9).2.2.2.1⟩

/-- C10: with the `NullSharedMutex` strategy the `constexpr` branch of
`try_push_back` / `try_emplace_back` runs: every call appends and returns
`true`; the "would block" outcome is unreachable, matching
`NullSharedMutex::try_lock` which always reports success. -/
theorem C10_null_strategy_try_always_succeeds (α : Type) (xs : List α)
    (v : α) (m : NullSharedMutex) :
    TSA.try_push_back_null xs v = (true, TSA.push_back xs v) ∧
    TSA.try_emplace_back_null xs v = (true, TSA.emplace_back xs v) ∧
    (TSA.try_push_back_null xs v).1 = true ∧
    (TSA.try_emplace_back_null xs v).1 = true ∧
    m.try_lock = true :=
  ⟨rfl, rfl, rfl, rfl, rfl⟩

/-- C8 as stated is false: the claimed state-word invariant ("0, or exactly
the writer mask with one exclusive holder and no readers, or a positive
reader count below the writer bit") is violated by the reachable state
reached after `2 ^ 31` successful shared acquisitions — reader-count
overflow sets the writer bit with no exclusive holder present. -/
theorem C8_counterexample :
    Spin.Reachable (Spin.readerState Spin.WRITER_MASK) ∧
    ¬ Spin.claimedInv (Spin.readerState Spin.WRITER_MASK) :=
  ⟨Spin.reachable_readerState Spin.WRITER_MASK (Nat.le_refl _), by decide⟩

/-- C8 (amended): in every reachable state of `SpinSharedMutex`, the state
word is 0 (free), or exactly the writer mask — held by one exclusive holder
with no readers, or (the overflow case the original claim misses) carrying
`2 ^ 31` shared holders with no writer — or a positive reader count at most
`READER_MASK` with the writer bit clear and no exclusive holder; an
exclusive acquisition succeeds only from the free state, and a shared
acquisition succeeds only while the writer bit is clear. -/
theorem C8_spin_mutex_state_invariant :
    (∀ s : Spin.State, Spin.Reachable s → Spin.amendedInv s) ∧
    (∀ s t : Spin.State, Spin.Step s t → s.writer = false → t.writer = true →
      s.word = 0) ∧
    (∀ s t : Spin.State, Spin.Step s t → t.readers = s.readers + 1 →
      Spin.writerBit s.word = false) :=
  ⟨fun _s h => Spin.inv_implies_amendedInv (Spin.reachable_inv h),
   fun _s _t h hs ht => Spin.step_exclusive_only_from_free h hs ht,
   fun _s _t h ht => Spin.step_shared_only_with_writer_bit_clear h ht⟩

/-- Witness for C8: the initial state satisfies the amended invariant; a
concrete exclusive acquisition departs from word 0; a concrete shared
acquisition sees the writer bit clear. -/
theorem C8_witness :
    Spin.amendedInv ⟨0, 0, false⟩ ∧
    (⟨0, 0, false⟩ : Spin.State).word = 0 ∧
    Spin.writerBit (⟨0, 0, false⟩ : Spin.State).word = false :=
  ⟨C8_spin_mutex_state_invariant.1 _ Spin.Reachable.init,
   C8_spin_mutex_state_invariant.2.1 _ _ (Spin.Step.lockEx rfl) rfl rfl,
   C8_spin_mutex_state_invariant.2.2 _ _ (Spin.Step.lockShared (by decide)) rfl⟩
